import Mathlib

/-!
# Money arithmetic of `asa/money.go`

A shallow embedding of the `Money` value of the Apple Search Ads client
(`Money.AmountCents`, `MoneyWithCents`, `Money.Mul`) together with the parts of
the Go runtime and standard library these functions call:

* Go strings are read as lists of characters; `goLen` is the byte length Go's
  `len` reports (the UTF-8 size of the text);
* Go's `int` is the 64-bit two's complement integer, carried in `Int` with an
  explicit `wrapInt` where the source multiplies;
* `strconv.Itoa`, `strconv.Atoi`, the `%02s` verb of `fmt.Sprintf` and
  `int(math.Pow10(n))` are modelled after the standard library;
* `float64` is modelled exactly: a finite value is a dyadic number `m * 2^e`,
  and every operation rounds to nearest, ties to even, at 53 bits.
-/

namespace asa

/-! ## Go runtime: strings and `int` -/

/-- Byte length of a Go string holding the given text (`len(s)`). -/
def goLen (s : List Char) : Nat := (s.map Char.utf8Size).sum

/-- Two's complement wrap-around of an exact integer into the range of a 64-bit `int`. -/
def wrapInt (x : Int) : Int := (x + 2 ^ 63) % 2 ^ 64 - 2 ^ 63

/-- The text before and the text after the first `.` of a string, and `none`
when it has no `.` (the case `strings.Index(s, ".") < 0`). For an index
`i >= 0` the two parts are the slices `s[:i]` and `s[i+1:]`. -/
def splitAtDot : List Char → Option (List Char × List Char)
  | [] => none
  | c :: rest =>
    if c = '.' then some ([], rest)
    else
      match splitAtDot rest with
      | none => none
      | some (before, after) => some (c :: before, after)

/-! ## `strconv` -/

/-- The character of a decimal digit `d < 10`. -/
def digitChar (d : Nat) : Char :=
  match d with
  | 0 => '0' | 1 => '1' | 2 => '2' | 3 => '3' | 4 => '4'
  | 5 => '5' | 6 => '6' | 7 => '7' | 8 => '8' | _ => '9'

/-- Decimal digits of `u`, most significant first, computed by repeated
division by ten; `fuel` bounds the number of divisions. -/
def formatDecimal : Nat → Nat → List Char
  | 0, _ => []
  | fuel + 1, u =>
    if u < 10 then [digitChar u]
    else formatDecimal fuel (u / 10) ++ [digitChar (u % 10)]

/-- The function `strconv.Itoa`: base-ten text of an integer, with a leading `-` when
negative. -/
def Itoa (i : Int) : List Char :=
  if i < 0 then '-' :: formatDecimal (i.natAbs + 1) i.natAbs
  else formatDecimal (i.natAbs + 1) i.natAbs

/-- Test `'0' <= ch <= '9'`. -/
def isDigit (ch : Char) : Bool := decide (48 ≤ ch.toNat ∧ ch.toNat ≤ 57)

/-- The digit loop of `strconv.Atoi`: `n = n*10 + (ch - '0')`, failing at the
first character that is not a decimal digit. The value is exact; the range
check is made by `Atoi`. -/
def parseDigits : List Char → Nat → Option Nat
  | [], n => some n
  | ch :: rest, n =>
    if isDigit ch then parseDigits rest (n * 10 + (ch.toNat - 48)) else none

/-- The function `strconv.Atoi` for a 64-bit `int`: an optional sign `+` or `-`, then one
or more decimal digits, whose value lies in `[-2^63, 2^63)`. `none` stands
for a non-nil error (syntax or range). -/
def Atoi (s : List Char) : Option Int :=
  let neg := s.head? = some '-'
  let body := if s.head? = some '-' ∨ s.head? = some '+' then s.tail else s
  if body = [] then none
  else
    match parseDigits body 0 with
    | none => none
    | some n =>
      let v : Int := if neg then -(n : Int) else (n : Int)
      if -(2 ^ 63) ≤ v ∧ v < 2 ^ 63 then some v else none

/-! ## `math` and `fmt` -/

/-- The expression `int(math.Pow10(n))`. For `0 <= n <= 18` the float is the exact power
of ten. For `n < 0` the float lies in `[0, 1)` and the conversion to `int`
truncates it to `0`. -/
def intPow10 (n : Int) : Int := if 0 ≤ n then 10 ^ n.toNat else 0

/-- The verb `%02s`: a string shorter than two characters is padded on the left with
`0` up to width two. -/
def padZero2 (s : List Char) : List Char := List.replicate (2 - s.length) '0' ++ s

/-! ## `float64` -/

/-- A `float64` value. `finite m e` is the number `m * 2^e`; the sign of a
zero is not recorded. -/
inductive Float64 where
  | finite (m : Int) (e : Int)
  | inf (neg : Bool)
  | nan
deriving DecidableEq, Repr

/-- Number of binary digits of `n`, by repeated halving; `fuel` bounds the
number of halvings. -/
def bitLengthAux : Nat → Nat → Nat
  | 0, _ => 0
  | fuel + 1, n => if n = 0 then 0 else bitLengthAux fuel (n / 2) + 1

/-- Number of binary digits of `n` (`0` for `n = 0`). -/
def bitLength (n : Nat) : Nat := bitLengthAux n n

/-- Drop the low `s` bits of `n`, rounding to nearest, ties to even. -/
def shiftRightRNE (n : Nat) (s : Nat) : Nat :=
  if s = 0 then n
  else
    let q := n / 2 ^ s
    let r := n % 2 ^ s
    let half := 2 ^ (s - 1)
    if half < r ∨ (r = half ∧ q % 2 = 1) then q + 1 else q

namespace Float64

/-- Round the exact number `m * 2^e` to `float64`: 53 significant bits, least
exponent `-1074`, round to nearest with ties to even, overflow to infinity
from `2^1024` on. -/
def round (m : Int) (e : Int) : Float64 :=
  let n := m.natAbs
  let s : Int := max (max ((bitLength n : Int) - 53) (-1074 - e)) 0
  let q := shiftRightRNE n s.toNat
  let e1 := e + s
  let q2 := if q = 2 ^ 53 then 2 ^ 52 else q
  let e2 := if q = 2 ^ 53 then e1 + 1 else e1
  if q2 = 0 then finite 0 0
  else if 1024 < e2 + bitLength q2 then inf (decide (m < 0))
  else finite (if m < 0 then -(q2 : Int) else (q2 : Int)) e2

/-- The conversion `float64(i)` of an `int`. -/
def ofInt (i : Int) : Float64 := round i 0

/-- The product `x * y` of two `float64` values. -/
def mul : Float64 → Float64 → Float64
  | finite m1 e1, finite m2 e2 => round (m1 * m2) (e1 + e2)
  | finite m1 _, inf s => if m1 = 0 then nan else inf (xor s (decide (m1 < 0)))
  | inf s, finite m2 _ => if m2 = 0 then nan else inf (xor s (decide (m2 < 0)))
  | inf s1, inf s2 => inf (xor s1 s2)
  | nan, _ => nan
  | _, nan => nan

/-- The conversion `int(x)` of a `float64`: the fraction is discarded (truncation
toward zero). For a value outside the range of `int`, for an infinity and for
NaN the Go specification leaves the result to the implementation; the value
`-2^63` of the amd64 target is used. -/
def toInt : Float64 → Int
  | finite m e =>
    let t : Int := if 0 ≤ e then m * 2 ^ e.toNat else Int.tdiv m (2 ^ (-e).toNat)
    if -(2 ^ 63) ≤ t ∧ t < 2 ^ 63 then t else -(2 ^ 63)
  | inf _ => -(2 ^ 63)
  | nan => -(2 ^ 63)

end Float64

/-! ## `asa/money.go` -/

/-- The struct `Money`: a decimal amount string and a currency code. -/
structure Money where
  Amount : String
  Currency : String
deriving DecidableEq, Repr

/-- The method `Money.AmountCents`: the amount in cents, `0` when `strconv.Atoi` reports
an error. -/
def Money.AmountCents (m : Money) : Int :=
  let split := splitAtDot m.Amount.toList
  let amount : List Char :=
    match split with
    | some (before, after) => before ++ after
    | none => m.Amount.toList
  let decimalPlaces : Nat :=
    match split with
    | some (_, after) => goLen after
    | none => 0
  match Atoi amount with
  | none => 0
  | some amountInt => wrapInt (amountInt * intPow10 (2 - (decimalPlaces : Int)))

/-- The function `MoneyWithCents`: the amount string of a cent count. The text produced
by `Itoa` is ASCII, so its length in bytes is its number of characters. -/
def MoneyWithCents (amount : Int) (currency : String) : Money :=
  let amountString := Itoa amount
  let amountString :=
    if amountString.length > 2 then
      amountString.take (amountString.length - 2) ++ '.' ::
        amountString.drop (amountString.length - 2)
    else if amountString = ['0'] then ['0']
    else '0' :: '.' :: padZero2 amountString
  { Amount := String.mk amountString, Currency := currency }

/-- The method `Money.Mul`: scale the cent count by a `float64` factor. -/
def Money.Mul (m : Money) (factor : Float64) : Money :=
  let amountCents := m.AmountCents
  let amountCents := Float64.toInt (Float64.mul (Float64.ofInt amountCents) factor)
  MoneyWithCents amountCents m.Currency

/-! ## `asa/custom_reports.go` -/

/-- The struct `DailyImpressionShareReport`, over the type of its records. -/
structure DailyImpressionShareReport (Record : Type) where
  Records : List Record

/-- What the network and the libraries answer during one call of `DownloadReport`:
the error of `http.NewRequestWithContext`, the error of `http.DefaultClient.Do`, the
status code of the response, the result of `io.ReadAll` on its body, the error of
closing the body, and the result of `gocsv.UnmarshalString` on a text. An error is
held as its message, `none` is the nil error. -/
structure Exchange (Record : Type) where
  newRequestErr : Option String
  doErr : Option String
  statusCode : Nat
  readAll : Except String String
  closeErr : Option String
  unmarshal : String → Except String (List Record)

/-- How a call of `DownloadReport` ends: it returns a report (or nil) and an error (or
nil), or the deferred `Body.Close` fails and `log.Fatal` ends the process. -/
inductive Outcome (Record : Type) where
  | returned (report : Option (DailyImpressionShareReport Record)) (err : Option String)
  | exited

/-- The method `ImpressionShareReportService.DownloadReport`, run against the answers
of one exchange. -/
def DownloadReport {Record : Type} (x : Exchange Record) : Outcome Record :=
  match x.newRequestErr with
  | some err => Outcome.returned none (some err)
  | none =>
    match x.doErr with
    | some err => Outcome.returned none (some err)
    | none =>
      let result : Option (DailyImpressionShareReport Record) × Option String :=
        match x.readAll with
        | Except.error err => (none, some ("failed to read response body: " ++ err))
        | Except.ok body =>
          match x.unmarshal body with
          | Except.error err => (none, some ("failed to parse CSV data: " ++ err))
          | Except.ok records => (some ⟨records⟩, none)
      match x.closeErr with
      | some _ => Outcome.exited
      | none => Outcome.returned result.1 result.2

/-- A response with status `404` whose body parses as a table without rows. -/
def notFoundExchange : Exchange Unit :=
  { newRequestErr := none, doErr := none, statusCode := 404,
    readAll := Except.ok "Not Found", closeErr := none,
    unmarshal := fun _ => Except.ok [] }

/-- An exchange whose transport fails: `http.DefaultClient.Do` reports a timeout. -/
def timeoutExchange : Exchange Unit :=
  { newRequestErr := none, doErr := some "context deadline exceeded", statusCode := 0,
    readAll := Except.ok "", closeErr := none,
    unmarshal := fun _ => Except.ok [] }

/-! ## Decimal digits -/

theorem digitChar_toNat (d : Nat) (h : d < 10) : (digitChar d).toNat = 48 + d := by
  interval_cases d <;> rfl

theorem isDigit_digitChar (d : Nat) : isDigit (digitChar d) = true := by
  unfold digitChar
  split <;> rfl

theorem isDigit_iff (ch : Char) : isDigit ch = true ↔ 48 ≤ ch.toNat ∧ ch.toNat ≤ 57 := by
  simp [isDigit]

theorem utf8Size_of_isDigit (ch : Char) (h : isDigit ch = true) : ch.utf8Size = 1 := by
  rw [isDigit_iff] at h
  have h1 : ch.val ≤ 127 := by
    rw [UInt32.le_def]
    show ch.val.toNat ≤ 127
    have : ch.toNat = ch.val.toNat := rfl
    omega
  unfold Char.utf8Size
  exact if_pos h1

/-- Every character of the list is a decimal digit. -/
def AllDigits (l : List Char) : Prop := ∀ ch ∈ l, isDigit ch = true

instance (l : List Char) : Decidable (AllDigits l) := by
  unfold AllDigits
  infer_instance

theorem goLen_of_allDigits (l : List Char) (h : AllDigits l) : goLen l = l.length := by
  induction l with
  | nil => rfl
  | cons a t ih =>
    have ha := utf8Size_of_isDigit a (h a (List.mem_cons_self _ _))
    have ht := ih (fun ch hc => h ch (List.mem_cons_of_mem _ hc))
    simp only [goLen, List.map_cons, List.sum_cons, List.length_cons] at ht ⊢
    omega

/-- The decimal text of a natural number, as `Itoa` writes it. -/
def decimalText (n : Nat) : List Char := formatDecimal (n + 1) n

theorem formatDecimal_fuel (f1 : Nat) :
    ∀ (f2 n : Nat), n < f1 → n < f2 → formatDecimal f1 n = formatDecimal f2 n := by
  induction f1 with
  | zero => intro f2 n h; omega
  | succ k ih =>
    intro f2 n h1 h2
    cases f2 with
    | zero => omega
    | succ j =>
      simp only [formatDecimal]
      by_cases h : n < 10
      · simp [h]
      · simp only [h, if_false]
        rw [ih j (n / 10) (by omega) (by omega)]

theorem decimalText_lt (n : Nat) (h : n < 10) : decimalText n = [digitChar n] := by
  simp [decimalText, formatDecimal, h]

theorem decimalText_ge (n : Nat) (h : 10 ≤ n) :
    decimalText n = decimalText (n / 10) ++ [digitChar (n % 10)] := by
  have h1 : ¬ n < 10 := by omega
  have h2 : formatDecimal (n + 1) n = formatDecimal n (n / 10) ++ [digitChar (n % 10)] := by
    simp [formatDecimal, h1]
  unfold decimalText
  rw [h2, formatDecimal_fuel n (n / 10 + 1) (n / 10) (by omega) (by omega)]

theorem decimalText_allDigits (n : Nat) : AllDigits (decimalText n) := by
  induction n using Nat.strong_induction_on with
  | _ n ih =>
    by_cases h : n < 10
    · rw [decimalText_lt n h]
      intro ch hc
      rw [List.mem_singleton] at hc
      rw [hc]
      exact isDigit_digitChar n
    · rw [decimalText_ge n (by omega)]
      intro ch hc
      rw [List.mem_append, List.mem_singleton] at hc
      rcases hc with hc | hc
      · exact ih (n / 10) (by omega) ch hc
      · rw [hc]
        exact isDigit_digitChar _

theorem decimalText_ne_nil (n : Nat) : decimalText n ≠ [] := by
  by_cases h : n < 10
  · rw [decimalText_lt n h]
    simp
  · rw [decimalText_ge n (by omega)]
    simp

theorem decimalText_length_le_two (n : Nat) (h : n < 100) : (decimalText n).length ≤ 2 := by
  by_cases h1 : n < 10
  · rw [decimalText_lt n h1]
    simp
  · rw [decimalText_ge n (by omega), decimalText_lt (n / 10) (by omega)]
    simp

theorem decimalText_hundred (n : Nat) (h : 100 ≤ n) :
    decimalText n = decimalText (n / 100) ++ [digitChar (n / 10 % 10), digitChar (n % 10)] := by
  rw [decimalText_ge n (by omega), decimalText_ge (n / 10) (by omega)]
  have : n / 10 / 10 = n / 100 := by omega
  rw [this]
  simp

/-! ## Reading digits -/

/-- The number a run of decimal digits denotes, read from the left. -/
def decimalValue (ds : List Char) : Nat := ds.foldl (fun n ch => n * 10 + (ch.toNat - 48)) 0

theorem parseDigits_append (xs ys : List Char) :
    ∀ n, parseDigits (xs ++ ys) n = (parseDigits xs n).bind (parseDigits ys) := by
  induction xs with
  | nil => intro n; rfl
  | cons a t ih =>
    intro n
    simp only [List.cons_append, parseDigits]
    by_cases h : isDigit a = true
    · simp only [h, if_true]
      exact ih _
    · simp [h]

theorem parseDigits_allDigits (l : List Char) (h : AllDigits l) :
    ∀ n, parseDigits l n = some (l.foldl (fun n ch => n * 10 + (ch.toNat - 48)) n) := by
  induction l with
  | nil => intro n; rfl
  | cons a t ih =>
    intro n
    have ha : isDigit a = true := h a (List.mem_cons_self _ _)
    simp only [parseDigits, ha, if_true, List.foldl_cons]
    exact ih (fun ch hc => h ch (List.mem_cons_of_mem _ hc)) _

theorem allDigits_of_parseDigits (l : List Char) :
    ∀ n v, parseDigits l n = some v → AllDigits l := by
  induction l with
  | nil => intro n v _ ch hc; simp at hc
  | cons a t ih =>
    intro n v hv
    simp only [parseDigits] at hv
    by_cases ha : isDigit a = true
    · simp only [ha, if_true] at hv
      intro ch hc
      rw [List.mem_cons] at hc
      rcases hc with hc | hc
      · rw [hc]; exact ha
      · exact ih _ v hv ch hc
    · simp [ha] at hv

theorem parseDigits_decimalText (n : Nat) : parseDigits (decimalText n) 0 = some n := by
  induction n using Nat.strong_induction_on with
  | _ n ih =>
    by_cases h : n < 10
    · rw [decimalText_lt n h]
      simp only [parseDigits, isDigit_digitChar, if_true, digitChar_toNat n h]
      congr 1
      omega
    · rw [decimalText_ge n (by omega), parseDigits_append, ih (n / 10) (by omega)]
      simp only [Option.some_bind, parseDigits, isDigit_digitChar, if_true,
        digitChar_toNat (n % 10) (Nat.mod_lt _ (by omega))]
      congr 1
      omega

theorem decimalValue_decimalText (n : Nat) : decimalValue (decimalText n) = n := by
  have h1 := parseDigits_allDigits (decimalText n) (decimalText_allDigits n) 0
  rw [parseDigits_decimalText] at h1
  exact (Option.some.inj h1).symm

/-! ## The point and the sign -/

theorem ne_of_isDigit (ch : Char) (h : isDigit ch = true) :
    ch ≠ '.' ∧ ch ≠ '-' ∧ ch ≠ '+' := by
  rw [isDigit_iff] at h
  refine ⟨?_, ?_, ?_⟩ <;> intro hc <;> rw [hc] at h <;> revert h <;> decide

theorem dot_not_mem_of_allDigits (l : List Char) (h : AllDigits l) : '.' ∉ l :=
  fun hc => (ne_of_isDigit '.' (h '.' hc)).1 rfl

theorem splitAtDot_none (l : List Char) (h : '.' ∉ l) : splitAtDot l = none := by
  induction l with
  | nil => rfl
  | cons a t ih =>
    have ha : a ≠ '.' := fun hc => h (by rw [hc]; exact List.mem_cons_self _ _)
    have ht : '.' ∉ t := fun hc => h (List.mem_cons_of_mem _ hc)
    simp [splitAtDot, ha, ih ht]

theorem splitAtDot_append (a b : List Char) (h : '.' ∉ a) :
    splitAtDot (a ++ '.' :: b) = some (a, b) := by
  induction a with
  | nil => simp [splitAtDot]
  | cons x t ih =>
    have hx : x ≠ '.' := fun hc => h (by rw [hc]; exact List.mem_cons_self _ _)
    have ht : '.' ∉ t := fun hc => h (List.mem_cons_of_mem _ hc)
    simp [splitAtDot, hx, ih ht]

/-- The text of the sign: `-` for a negative number, nothing otherwise. -/
def signText (neg : Bool) : List Char := if neg then ['-'] else []

/-- The integer with the given sign and magnitude. -/
def signedValue (neg : Bool) (n : Nat) : Int := if neg then -(n : Int) else (n : Int)

theorem dot_not_mem_signText (neg : Bool) : '.' ∉ signText neg := by
  cases neg <;> simp [signText]

theorem Atoi_signed (neg : Bool) (ds : List Char) (hne : ds ≠ []) (hd : AllDigits ds)
    (hlo : -(2 ^ 63) ≤ signedValue neg (decimalValue ds))
    (hhi : signedValue neg (decimalValue ds) < 2 ^ 63) :
    Atoi (signText neg ++ ds) = some (signedValue neg (decimalValue ds)) := by
  obtain ⟨x, t, rfl⟩ := List.exists_cons_of_ne_nil hne
  have hx := ne_of_isDigit x (hd x (List.mem_cons_self _ _))
  have hp : parseDigits (x :: t) 0 = some (decimalValue (x :: t)) :=
    parseDigits_allDigits (x :: t) hd 0
  generalize decimalValue (x :: t) = n at hp hlo hhi ⊢
  cases neg with
  | true =>
    simp only [signedValue, if_true] at hlo hhi ⊢
    simp only [Atoi, signText, if_true, List.singleton_append, List.head?_cons, true_or,
      List.tail_cons, hp]
    rw [if_neg (by simp), if_pos ⟨hlo, hhi⟩]
  | false =>
    simp only [signedValue, Bool.false_eq_true, if_false] at hlo hhi ⊢
    have h1 : ¬ (some x = some '-' ∨ some x = some '+') := by
      simp [hx.2.1, hx.2.2]
    have h2 : ¬ (some x = some '-') := by simp [hx.2.1]
    simp only [Atoi, signText, Bool.false_eq_true, if_false, List.nil_append, List.head?_cons]
    rw [if_neg h1, if_neg hne, hp]
    simp only []
    rw [if_neg h2, if_pos ⟨hlo, hhi⟩]

theorem wrapInt_of_range (x : Int) (hlo : -(2 ^ 63) ≤ x) (hhi : x < 2 ^ 63) : wrapInt x = x := by
  unfold wrapInt
  omega

theorem amountCents_point (neg : Bool) (ip fp : List Char) (cur : String)
    (hne : ip ++ fp ≠ []) (hi : AllDigits ip) (hf : AllDigits fp)
    (hlo : -(2 ^ 63) ≤ signedValue neg (decimalValue (ip ++ fp)))
    (hhi : signedValue neg (decimalValue (ip ++ fp)) < 2 ^ 63) :
    Money.AmountCents ⟨String.mk ((signText neg ++ ip) ++ '.' :: fp), cur⟩ =
      wrapInt (signedValue neg (decimalValue (ip ++ fp)) * intPow10 (2 - (fp.length : Int))) := by
  have hdot : '.' ∉ signText neg ++ ip := by
    rw [List.mem_append]
    exact fun hc => hc.elim (dot_not_mem_signText neg) (dot_not_mem_of_allDigits ip hi)
  have hall : AllDigits (ip ++ fp) := by
    intro ch hc
    rw [List.mem_append] at hc
    exact hc.elim (hi ch) (hf ch)
  have hA := Atoi_signed neg (ip ++ fp) hne hall hlo hhi
  rw [← List.append_assoc] at hA
  simp only [Money.AmountCents, String.toList, splitAtDot_append _ fp hdot, hA,
    goLen_of_allDigits fp hf]

theorem amountCents_whole (neg : Bool) (ip : List Char) (cur : String)
    (hne : ip ≠ []) (hi : AllDigits ip)
    (hlo : -(2 ^ 63) ≤ signedValue neg (decimalValue ip))
    (hhi : signedValue neg (decimalValue ip) < 2 ^ 63) :
    Money.AmountCents ⟨String.mk (signText neg ++ ip), cur⟩ =
      wrapInt (signedValue neg (decimalValue ip) * 100) := by
  have hdot : '.' ∉ signText neg ++ ip := by
    rw [List.mem_append]
    exact fun hc => hc.elim (dot_not_mem_signText neg) (dot_not_mem_of_allDigits ip hi)
  have hA := Atoi_signed neg ip hne hi hlo hhi
  simp only [Money.AmountCents, String.toList, splitAtDot_none _ hdot, hA]
  rfl

/-! ## Rendering a cent count -/

theorem Itoa_nonneg (c : Int) (h : 0 ≤ c) : Itoa c = decimalText c.natAbs := by
  simp [Itoa, decimalText, not_lt.mpr h]

theorem moneyWithCents_hundred (c : Int) (cur : String) (h : 100 ≤ c) :
    MoneyWithCents c cur =
      ⟨String.mk (decimalText (c.natAbs / 100) ++
        '.' :: [digitChar (c.natAbs / 10 % 10), digitChar (c.natAbs % 10)]), cur⟩ := by
  have hn : 100 ≤ c.natAbs := by omega
  have hlen : 0 < (decimalText (c.natAbs / 100)).length :=
    List.length_pos.mpr (decimalText_ne_nil _)
  simp only [MoneyWithCents, Itoa_nonneg c (by omega), decimalText_hundred _ hn]
  rw [if_pos (by simp; omega)]
  simp

set_option maxRecDepth 100000 in
theorem roundtrip_small (c : Int) (cur : String) (h0 : 0 ≤ c) (h1 : c < 100) :
    (MoneyWithCents c cur).AmountCents = c := by
  interval_cases c <;> rfl

/-- The text of a well-formed amount: an optional `-`, the digits of the whole part,
and, when there is a fractional part, a `.` followed by its digits. -/
def amountText (neg : Bool) (ip : List Char) (frac : Option (List Char)) : List Char :=
  match frac with
  | none => signText neg ++ ip
  | some fp => (signText neg ++ ip) ++ '.' :: fp

theorem allDigits_pair (a b : Nat) : AllDigits [digitChar a, digitChar b] := by
  intro ch hc
  simp only [List.mem_cons, List.mem_singleton, List.not_mem_nil, or_false] at hc
  rcases hc with hc | hc <;> rw [hc] <;> exact isDigit_digitChar _

/-! ## Exact cases of `float64` arithmetic -/

theorem bitLengthAux_le (fuel : Nat) : ∀ (k n : Nat), n < 2 ^ k → bitLengthAux fuel n ≤ k := by
  induction fuel with
  | zero => intro k n _; exact Nat.zero_le _
  | succ f ih =>
    intro k n h
    simp only [bitLengthAux]
    by_cases hn : n = 0
    · simp [hn]
    · simp only [hn, if_false]
      cases k with
      | zero => simp at h; exact absurd h hn
      | succ j =>
        have h2 : n / 2 < 2 ^ j := by
          rw [Nat.pow_succ] at h
          omega
        have := ih j (n / 2) h2
        omega

theorem bitLength_le (k n : Nat) (h : n < 2 ^ k) : bitLength n ≤ k :=
  bitLengthAux_le n k n h

theorem shiftRightRNE_zero (s : Nat) : shiftRightRNE 0 s = 0 := by
  unfold shiftRightRNE
  by_cases hs : s = 0
  · simp [hs]
  · have hpos : 0 < 2 ^ (s - 1) := Nat.two_pow_pos _
    simp only [hs, if_false, Nat.zero_div, Nat.zero_mod]
    rw [if_neg]
    rintro (h | ⟨h, -⟩) <;> omega

theorem shiftRightRNE_le (n s : Nat) : shiftRightRNE n s ≤ n + 1 := by
  unfold shiftRightRNE
  have := Nat.div_le_self n (2 ^ s)
  by_cases hs : s = 0
  · simp [hs]
  · simp only [hs, if_false]
    split <;> omega

theorem round_zero (e : Int) : Float64.round 0 e = Float64.finite 0 0 := by
  simp [Float64.round, shiftRightRNE_zero]

theorem round_exact (m e : Int) (hm : m.natAbs < 2 ^ 53) (h1 : -1074 ≤ e) (h2 : e ≤ 971) :
    Float64.round m e = if m = 0 then Float64.finite 0 0 else Float64.finite m e := by
  by_cases h0 : m = 0
  · rw [if_pos h0, h0, round_zero]
  · rw [if_neg h0]
    have hb := bitLength_le 53 m.natAbs hm
    have hs : max (max ((bitLength m.natAbs : Int) - 53) (-1074 - e)) 0 = 0 := by omega
    have hq : ¬ m.natAbs = 2 ^ 53 := by omega
    have hn : ¬ m.natAbs = 0 := by omega
    have hov : ¬ (1024 < e + (bitLength m.natAbs : Int)) := by omega
    have hval : (if m < 0 then -(m.natAbs : Int) else (m.natAbs : Int)) = m := by
      split <;> omega
    simp only [Float64.round, hs, Int.toNat_zero, shiftRightRNE, if_true, hq, if_false, hn,
      hval, add_zero]
    rw [if_neg hov]

theorem ofInt_exact (c : Int) (hc : c.natAbs < 2 ^ 53) : Float64.ofInt c = Float64.finite c 0 := by
  rw [Float64.ofInt, round_exact c 0 hc (by decide) (by decide)]
  split
  · rename_i h; rw [h]
  · rfl

theorem mul_exact (c a b : Int) (hc : c.natAbs < 2 ^ 53) (hca : (c * a).natAbs < 2 ^ 53)
    (h1 : -1074 ≤ b) (h2 : b ≤ 971) :
    Float64.mul (Float64.ofInt c) (Float64.finite a b) =
      if c * a = 0 then Float64.finite 0 0 else Float64.finite (c * a) b := by
  rw [ofInt_exact c hc]
  simp only [Float64.mul, zero_add]
  exact round_exact (c * a) b hca h1 h2

theorem toInt_whole (t : Int) (hlo : -(2 ^ 63) ≤ t) (hhi : t < 2 ^ 63) :
    Float64.toInt (Float64.finite t 0) = t := by
  simp only [Float64.toInt, le_refl, if_true, Int.toNat_zero, pow_zero, mul_one]
  rw [if_pos ⟨hlo, hhi⟩]

theorem amountCents_range (m : Money) :
    -(2 ^ 63) ≤ m.AmountCents ∧ m.AmountCents < 2 ^ 63 := by
  unfold Money.AmountCents
  simp only []
  split
  · decide
  · unfold wrapInt
    omega

theorem ofInt_finite (c : Int) (hlo : -(2 ^ 63) ≤ c) (hhi : c < 2 ^ 63) :
    ∃ pm pe, Float64.ofInt c = Float64.finite pm pe := by
  have hn : c.natAbs < 2 ^ 64 := by omega
  have hb := bitLength_le 64 c.natAbs hn
  unfold Float64.ofInt Float64.round
  simp only []
  generalize hs : max (max ((bitLength c.natAbs : Int) - 53) (-1074 - 0)) 0 = s
  have hs1 : 0 ≤ s ∧ s ≤ 11 := by omega
  generalize hq : shiftRightRNE c.natAbs s.toNat = q
  have hq1 : q ≤ c.natAbs + 1 := by rw [← hq]; exact shiftRightRNE_le _ _
  generalize hq2 : (if q = 2 ^ 53 then 2 ^ 52 else q) = q2
  generalize he2 : (if q = 2 ^ 53 then 0 + s + 1 else 0 + s) = e2
  have hq3 : q2 < 2 ^ 65 := by
    rw [← hq2]
    split <;> omega
  have he3 : e2 ≤ 12 := by
    rw [← he2]
    split <;> omega
  have hb2 := bitLength_le 65 q2 hq3
  by_cases hz : q2 = 0
  · rw [if_pos hz]
    exact ⟨_, _, rfl⟩
  · rw [if_neg hz, if_neg (by omega)]
    exact ⟨_, _, rfl⟩

/-- The number `m * 2^e` with its fractional part discarded: the sign of `m` and the
whole part of the magnitude `|m| * 2^e`. -/
def truncToZero (m e : Int) : Int :=
  Int.sign m * (((m.natAbs * 2 ^ e.toNat) / 2 ^ (-e).toNat : Nat) : Int)

theorem tdiv_eq_sign_mul (m : Int) (d : Nat) :
    Int.tdiv m (d : Int) = Int.sign m * ((m.natAbs / d : Nat) : Int) := by
  obtain ⟨n, rfl | rfl⟩ := Int.eq_nat_or_neg m
  · rw [← Int.ofNat_tdiv, Int.natAbs_ofNat]
    rcases Nat.eq_zero_or_pos n with h | h
    · simp [h]
    · rw [Int.sign_eq_one_of_pos (by omega), one_mul]
  · rw [Int.neg_tdiv, ← Int.ofNat_tdiv, Int.natAbs_neg, Int.natAbs_ofNat]
    rcases Nat.eq_zero_or_pos n with h | h
    · simp [h]
    · rw [Int.sign_eq_neg_one_of_neg (by omega)]
      simp

theorem toInt_eq_truncToZero (m e : Int) (hlo : -(2 ^ 63) ≤ truncToZero m e)
    (hhi : truncToZero m e < 2 ^ 63) : Float64.toInt (Float64.finite m e) = truncToZero m e := by
  have ht : (if 0 ≤ e then m * 2 ^ e.toNat else Int.tdiv m (2 ^ (-e).toNat)) =
      truncToZero m e := by
    unfold truncToZero
    by_cases he : 0 ≤ e
    · have h0 : (-e).toNat = 0 := by omega
      rw [if_pos he, h0, pow_zero, Nat.div_one]
      push_cast
      rw [← mul_assoc, Int.sign_mul_abs]
    · have h0 : e.toNat = 0 := by omega
      rw [if_neg he, h0, pow_zero, mul_one, ← tdiv_eq_sign_mul]
      push_cast
      rfl
  simp only [Float64.toInt]
  rw [ht, if_pos ⟨hlo, hhi⟩]

/-- An optionally signed, non-empty run of decimal digits: some digits, possibly
after one `-` or `+`. -/
def SignedDigits (l : List Char) : Prop :=
  ∃ body : List Char, (l = body ∨ l = '-' :: body ∨ l = '+' :: body) ∧ body ≠ [] ∧
    ∀ ch ∈ body, ch.isDigit = true

theorem isDigit_eq_core (ch : Char) : isDigit ch = ch.isDigit := by
  have h1 : (ch.val ≥ 48) ↔ 48 ≤ ch.toNat := by
    show (48 : UInt32) ≤ ch.val ↔ _
    rw [UInt32.le_def]
    rfl
  have h2 : (ch.val ≤ 57) ↔ ch.toNat ≤ 57 := by
    rw [UInt32.le_def]
    rfl
  simp only [isDigit, Char.isDigit, Bool.decide_and, h1, h2]

theorem amount_eq_erase (l : List Char) :
    (match splitAtDot l with
      | some (before, after) => before ++ after
      | none => l) = l.erase '.' := by
  induction l with
  | nil => rfl
  | cons a t ih =>
    by_cases ha : a = '.'
    · simp [splitAtDot, ha]
    · have hb : (a == '.') = false := by simp [ha]
      rw [List.erase_cons, hb]
      simp only [splitAtDot, ha, if_false, Bool.false_eq_true]
      rw [← ih]
      cases splitAtDot t with
      | none => rfl
      | some p => rfl

theorem signedDigits_of_Atoi (l : List Char) (v : Int) (h : Atoi l = some v) :
    SignedDigits l := by
  unfold Atoi at h
  simp only [] at h
  generalize hb : (if l.head? = some '-' ∨ l.head? = some '+' then l.tail else l) = body at h
  by_cases hbody : body = []
  · rw [if_pos hbody] at h
    exact absurd h (by simp)
  · rw [if_neg hbody] at h
    cases hp : parseDigits body 0 with
    | none => rw [hp] at h; exact absurd h (by simp)
    | some n =>
      have hd := allDigits_of_parseDigits _ 0 n hp
      refine ⟨body, ?_, hbody, fun ch hc => by rw [← isDigit_eq_core]; exact hd ch hc⟩
      rw [← hb]
      cases l with
      | nil => left; simp
      | cons x t =>
        by_cases h1 : x = '-'
        · right; left; simp [h1]
        · by_cases h2 : x = '+'
          · right; right; simp [h2]
          · left; simp [h1, h2]

/-! ## Negative cent counts -/

theorem Itoa_neg (c : Int) (h : c < 0) : Itoa c = '-' :: decimalText c.natAbs := by
  simp [Itoa, decimalText, h]

theorem moneyWithCents_neg_hundred (c : Int) (cur : String) (h : c ≤ -100) :
    MoneyWithCents c cur =
      ⟨String.mk ((signText true ++ decimalText (c.natAbs / 100)) ++
        '.' :: [digitChar (c.natAbs / 10 % 10), digitChar (c.natAbs % 10)]), cur⟩ := by
  have hn : 100 ≤ c.natAbs := by omega
  simp only [MoneyWithCents, Itoa_neg c (by omega), decimalText_hundred _ hn, signText]
  rw [if_pos (by simp)]
  simp

theorem roundtrip_neg_hundred (c : Int) (cur : String) (h : c ≤ -100) (hlo : -(2 ^ 63) ≤ c) :
    (MoneyWithCents c cur).AmountCents = c := by
  have hn : 100 ≤ c.natAbs := by omega
  have hv : decimalValue (decimalText (c.natAbs / 100) ++
      [digitChar (c.natAbs / 10 % 10), digitChar (c.natAbs % 10)]) = c.natAbs := by
    rw [← decimalText_hundred _ hn]
    exact decimalValue_decimalText _
  have hc : signedValue true c.natAbs = c := by
    show -(c.natAbs : Int) = c
    omega
  have key := amountCents_point true (decimalText (c.natAbs / 100))
    [digitChar (c.natAbs / 10 % 10), digitChar (c.natAbs % 10)] cur (by simp)
    (decimalText_allDigits _) (allDigits_pair _ _)
    (by rw [hv, hc]; exact hlo)
    (by rw [hv, hc]; omega)
  rw [hv] at key
  rw [moneyWithCents_neg_hundred c cur h, key, hc]
  simp only [List.length_cons, List.length_nil, intPow10]
  norm_num
  exact wrapInt_of_range c hlo (by omega)

set_option maxRecDepth 100000 in
theorem roundtrip_neg_two_digits (c : Int) (cur : String) (h0 : -99 ≤ c) (h1 : c ≤ -10) :
    (MoneyWithCents c cur).AmountCents = c := by
  interval_cases c <;> rfl

set_option maxRecDepth 100000 in
theorem moneyWithCents_neg_one_digit (c : Int) (cur : String) (h0 : -9 ≤ c) (h1 : c ≤ -1) :
    (MoneyWithCents c cur).Amount = String.mk ['0', '.', '-', digitChar c.natAbs] ∧
      (MoneyWithCents c cur).AmountCents = 0 := by
  interval_cases c <;> exact ⟨rfl, rfl⟩

theorem length_le_goLen (l : List Char) : l.length ≤ goLen l := by
  induction l with
  | nil => exact Nat.le_refl _
  | cons a t ih =>
    have ha := Char.utf8Size_pos a
    simp only [goLen, List.map_cons, List.sum_cons, List.length_cons] at ih ⊢
    omega

theorem intPow10_neg (n : Int) (h : n < 0) : intPow10 n = 0 := by
  unfold intPow10
  rw [if_neg (by omega)]

/-! ## Canonical amounts -/

theorem digitChar_of_isDigit (ch : Char) (h : isDigit ch = true) :
    digitChar (ch.toNat - 48) = ch := by
  rw [isDigit_iff] at h
  have hc := Char.ofNat_toNat ch
  generalize ch.toNat = n at h hc
  subst hc
  obtain ⟨h1, h2⟩ := h
  interval_cases n <;> rfl

theorem decimalValue_snoc (l : List Char) (d : Char) :
    decimalValue (l ++ [d]) = decimalValue l * 10 + (d.toNat - 48) := by
  simp [decimalValue, List.foldl_append]

theorem decimalText_decimalValue (l : List Char) :
    AllDigits l → l ≠ [] → l.head? ≠ some '0' →
      decimalText (decimalValue l) = l ∧ 0 < decimalValue l := by
  induction l using List.reverseRecOn with
  | nil => intro _ h; exact absurd rfl h
  | append_singleton init d ih =>
    intro hall _ hhead
    have hd : isDigit d = true := hall d (by simp)
    have hdv := digitChar_of_isDigit d hd
    have hlt : d.toNat - 48 < 10 := by
      rw [isDigit_iff] at hd
      omega
    rw [decimalValue_snoc]
    by_cases hinit : init = []
    · subst hinit
      have hne : d.toNat - 48 ≠ 0 := by
        intro h0
        rw [h0] at hdv
        exact hhead (by rw [← hdv]; rfl)
      have hv : decimalValue [] = 0 := rfl
      rw [hv, Nat.zero_mul, Nat.zero_add, decimalText_lt _ hlt, hdv]
      exact ⟨rfl, by omega⟩
    · have hi := ih (fun ch hc => hall ch (by simp [hc])) hinit
        (by rw [List.head?_append_of_ne_nil _ hinit] at hhead; exact hhead)
      have hge : 10 ≤ decimalValue init * 10 + (d.toNat - 48) := by omega
      have hdiv : (decimalValue init * 10 + (d.toNat - 48)) / 10 = decimalValue init := by omega
      have hmod : (decimalValue init * 10 + (d.toNat - 48)) % 10 = d.toNat - 48 := by omega
      rw [decimalText_ge _ hge, hdiv, hmod, hi.1, hdv]
      exact ⟨rfl, by omega⟩

theorem moneyWithCents_of_text (c : Int) (cur : String) (ip : List Char) (a b : Char)
    (h0 : 0 ≤ c) (ht : decimalText c.natAbs = ip ++ [a, b]) (hne : ip ≠ []) :
    MoneyWithCents c cur = ⟨String.mk (ip ++ '.' :: [a, b]), cur⟩ := by
  have hlen : 0 < ip.length := List.length_pos.mpr hne
  simp only [MoneyWithCents, Itoa_nonneg c h0, ht]
  rw [if_pos (by simp; omega)]
  simp

set_option maxRecDepth 100000 in
theorem moneyWithCents_small (c : Int) (cur : String) (h0 : 0 < c) (h1 : c < 100) :
    MoneyWithCents c cur =
      ⟨String.mk ['0', '.', digitChar (c / 10).toNat, digitChar (c % 10).toNat], cur⟩ := by
  interval_cases c <;> rfl

/-- A canonical amount: the text `0`, or `I.dd` with `I` a non-empty run of digits
that is `0` or does not start with `0`, `dd` two digits, and a value above zero. -/
def CanonicalAmount (l : List Char) : Prop :=
  l = ['0'] ∨ ∃ (ip : List Char) (a b : Char), l = ip ++ '.' :: [a, b] ∧ ip ≠ [] ∧
    AllDigits ip ∧ (ip = ['0'] ∨ ip.head? ≠ some '0') ∧ isDigit a = true ∧
    isDigit b = true ∧ 0 < decimalValue (ip ++ [a, b])

theorem canonical_point (ip : List Char) (a b : Char) (cur : String) (hne : ip ≠ [])
    (hi : AllDigits ip) (hz : ip = ['0'] ∨ ip.head? ≠ some '0') (ha : isDigit a = true)
    (hb : isDigit b = true) (hpos : 0 < decimalValue (ip ++ [a, b]))
    (hfit : decimalValue (ip ++ [a, b]) < 2 ^ 63) :
    MoneyWithCents (Money.AmountCents ⟨String.mk (ip ++ '.' :: [a, b]), cur⟩) cur =
      ⟨String.mk (ip ++ '.' :: [a, b]), cur⟩ := by
  have hf : AllDigits [a, b] := by
    intro ch hc
    simp only [List.mem_cons, List.mem_singleton, List.not_mem_nil, or_false] at hc
    rcases hc with hc | hc <;> rw [hc] <;> assumption
  have hall : AllDigits (ip ++ [a, b]) := by
    intro ch hc
    rw [List.mem_append] at hc
    exact hc.elim (hi ch) (hf ch)
  have key := amountCents_point false ip [a, b] cur (by simp [hne]) hi hf
    (by simp only [signedValue]; omega) (by simp only [signedValue]; omega)
  simp only [signText, signedValue, Bool.false_eq_true, if_false, List.nil_append,
    List.length_cons, List.length_nil, intPow10] at key
  norm_num at key
  rw [wrapInt_of_range _ (by omega) (by omega)] at key
  rw [key]
  rcases hz with hz | hz
  · subst hz
    have hva := digitChar_of_isDigit a ha
    have hvb := digitChar_of_isDigit b hb
    have hla : a.toNat - 48 < 10 := by rw [isDigit_iff] at ha; omega
    have hlb : b.toNat - 48 < 10 := by rw [isDigit_iff] at hb; omega
    have hval : decimalValue (['0'] ++ [a, b]) = (a.toNat - 48) * 10 + (b.toNat - 48) := by
      simp [decimalValue]
    rw [hval] at hpos ⊢
    rw [moneyWithCents_small _ cur (by omega) (by omega)]
    have h1 : ((((a.toNat - 48) * 10 + (b.toNat - 48) : Nat) : Int) / 10).toNat =
        a.toNat - 48 := by omega
    have h2 : ((((a.toNat - 48) * 10 + (b.toNat - 48) : Nat) : Int) % 10).toNat =
        b.toNat - 48 := by omega
    rw [h1, h2, hva, hvb]
    rfl
  · have hcanon := decimalText_decimalValue (ip ++ [a, b]) hall (by simp)
      (by rw [List.head?_append_of_ne_nil _ hne]; exact hz)
    exact moneyWithCents_of_text _ cur ip a b (by omega)
      (by rw [Int.natAbs_ofNat]; exact hcanon.1) hne

/-! ## The form of an amount -/

/-- The decimal form of the data model: an optional leading `-`, one or more digits,
and optionally one `.` followed by at most two digits. -/
def DecimalForm (l : List Char) : Prop :=
  ∃ (neg : Bool) (ip : List Char) (frac : Option (List Char)),
    l = amountText neg ip frac ∧ ip ≠ [] ∧ AllDigits ip ∧ AllDigits (frac.getD []) ∧
      (frac.getD []).length ≤ 2

theorem minus_not_mem_of_allDigits (l : List Char) (h : AllDigits l) : '-' ∉ l :=
  fun hc => (ne_of_isDigit '-' (h '-' hc)).2.1 rfl

/-- The text of an optional fractional part: nothing, or `.` and the digits. -/
def fracText (frac : Option (List Char)) : List Char :=
  match frac with
  | none => []
  | some fp => '.' :: fp

theorem amountText_eq (neg : Bool) (ip : List Char) (frac : Option (List Char)) :
    amountText neg ip frac = signText neg ++ (ip ++ fracText frac) := by
  cases frac <;> simp [amountText, fracText]

theorem minus_not_mem_fracText (frac : Option (List Char)) (h : AllDigits (frac.getD [])) :
    '-' ∉ fracText frac := by
  cases frac with
  | none => simp [fracText]
  | some fp =>
    have hm := minus_not_mem_of_allDigits _ h
    simp only [Option.getD_some] at hm
    simp only [fracText, List.mem_cons, not_or]
    exact ⟨by decide, hm⟩

theorem decimalForm_necessary (l : List Char) (h : DecimalForm l) :
    '-' ∉ l.tail ∧ (l.head? = some '-' → l.tail.head? ≠ some '.') := by
  obtain ⟨neg, ip, frac, hl, hne, hi, hf, -⟩ := h
  obtain ⟨x, t, rfl⟩ := List.exists_cons_of_ne_nil hne
  have hx := ne_of_isDigit x (hi x (List.mem_cons_self _ _))
  have hmi := minus_not_mem_of_allDigits _ hi
  have hmf := minus_not_mem_fracText frac hf
  have hrest : '-' ∉ (x :: t) ++ fracText frac := by
    rw [List.mem_append]
    exact fun hc => hc.elim hmi hmf
  rw [hl, amountText_eq]
  generalize fracText frac = r at hrest
  cases neg with
  | true =>
    refine ⟨by simpa [signText] using hrest, fun _ => ?_⟩
    simp only [signText, if_true, List.singleton_append, List.tail_cons, List.cons_append,
      List.head?_cons]
    intro hc
    exact hx.1 (Option.some.inj hc)
  | false =>
    simp only [signText, Bool.false_eq_true, if_false, List.nil_append, List.cons_append,
      List.tail_cons, List.head?_cons]
    refine ⟨fun hc => hrest (List.mem_cons_of_mem _ hc), fun hc => ?_⟩
    exact absurd (Option.some.inj hc) hx.2.1

theorem amount_cur (c : Int) (cur : String) :
    (MoneyWithCents c cur).Amount = (MoneyWithCents c "").Amount := rfl

set_option maxRecDepth 100000 in
theorem not_decimalForm_small_negative (c : Int) (cur : String) (h0 : -99 ≤ c) (h1 : c ≤ -1) :
    ¬ DecimalForm (MoneyWithCents c cur).Amount.toList := by
  rw [amount_cur]
  intro h
  have hn := decimalForm_necessary _ h
  revert hn
  interval_cases c <;> decide

/-! ## Claims -/

/-- C1: for every cent count `c` with `0 <= c` in the range of a 64-bit `int` and
every currency string, rendering `c` with `MoneyWithCents` and reading the result
back with `AmountCents` gives `c` again. -/
theorem MoneyWithCents_AmountCents_roundtrip (c : Int) (cur : String)
    (h0 : 0 ≤ c) (h1 : c < 2 ^ 63) : (MoneyWithCents c cur).AmountCents = c := by
  by_cases hs : c < 100
  · exact roundtrip_small c cur h0 hs
  · have hn : 100 ≤ c.natAbs := by omega
    have hc : (c.natAbs : Int) = c := Int.natAbs_of_nonneg h0
    have hv : decimalValue (decimalText (c.natAbs / 100) ++
        [digitChar (c.natAbs / 10 % 10), digitChar (c.natAbs % 10)]) = c.natAbs := by
      rw [← decimalText_hundred _ hn]
      exact decimalValue_decimalText _
    have key := amountCents_point false (decimalText (c.natAbs / 100))
      [digitChar (c.natAbs / 10 % 10), digitChar (c.natAbs % 10)] cur (by simp)
      (decimalText_allDigits _) (allDigits_pair _ _)
      (by rw [hv]; simp only [signedValue]; omega)
      (by rw [hv]; simp only [signedValue]; omega)
    rw [hv] at key
    rw [moneyWithCents_hundred c cur (by omega)]
    simp only [signText, signedValue, Bool.false_eq_true, if_false, List.nil_append] at key
    rw [key, hc]
    simp only [List.length_cons, List.length_nil, intPow10]
    norm_num
    exact wrapInt_of_range c (by omega) h1

theorem MoneyWithCents_AmountCents_roundtrip_witness :
    (0 : Int) ≤ 10012 ∧ (10012 : Int) < 2 ^ 63 ∧
      (MoneyWithCents 10012 "USD").AmountCents = 10012 :=
  ⟨by decide, by decide, MoneyWithCents_AmountCents_roundtrip 10012 "USD" (by decide) (by decide)⟩

/-- C2: for a well-formed amount `[-]digits[.digits]` with `k <= 2` fractional digits
(`k = 0` without a point), `AmountCents` is exactly `N * 10^(2-k)`, where `N` is the
signed integer read from the digits with the point removed, provided that product
fits in a 64-bit `int`; the three parsed amounts of the test table follow. -/
theorem AmountCents_exact (neg : Bool) (ip : List Char) (frac : Option (List Char))
    (cur : String) (hne : ip ≠ []) (hi : AllDigits ip) (hf : AllDigits (frac.getD []))
    (hk : (frac.getD []).length ≤ 2)
    (hlo : -(2 ^ 63) ≤ signedValue neg (decimalValue (ip ++ frac.getD [])) *
      10 ^ (2 - (frac.getD []).length))
    (hhi : signedValue neg (decimalValue (ip ++ frac.getD [])) *
      10 ^ (2 - (frac.getD []).length) < 2 ^ 63) :
    Money.AmountCents ⟨String.mk (amountText neg ip frac), cur⟩ =
      signedValue neg (decimalValue (ip ++ frac.getD [])) *
        10 ^ (2 - (frac.getD []).length) := by
  cases frac with
  | none =>
    simp only [Option.getD_none, List.append_nil, List.length_nil] at hlo hhi ⊢
    norm_num at hlo hhi ⊢
    rw [amountText, amountCents_whole neg ip cur hne hi (by omega) (by omega)]
    exact wrapInt_of_range _ (by omega) (by omega)
  | some fp =>
    simp only [Option.getD_some] at hf hk hlo hhi ⊢
    have hpow : intPow10 (2 - (fp.length : Int)) = 10 ^ (2 - fp.length) := by
      generalize fp.length = k at hk
      interval_cases k <;> rfl
    have hrange : -(2 ^ 63) ≤ signedValue neg (decimalValue (ip ++ fp)) ∧
        signedValue neg (decimalValue (ip ++ fp)) < 2 ^ 63 := by
      generalize fp.length = k at hk hlo hhi
      interval_cases k <;> norm_num at hlo hhi <;> omega
    rw [amountText, amountCents_point neg ip fp cur (by simp [hne]) hi hf hrange.1 hrange.2, hpow]
    exact wrapInt_of_range _ hlo hhi

theorem AmountCents_exact_witness : Money.AmountCents ⟨"100.12", "USD"⟩ = 10012 :=
  AmountCents_exact false ['1', '0', '0'] (some ['1', '2']) "USD" (by decide) (by decide)
    (by decide) (by decide) (by decide) (by decide)

/-- C3: when the amount text with its first `.` removed is not an optionally signed,
non-empty run of decimal digits, `AmountCents` returns `0`; the function is total, so
no error is reported. -/
theorem AmountCents_malformed (s cur : String) (h : ¬ SignedDigits (s.toList.erase '.')) :
    Money.AmountCents ⟨s, cur⟩ = 0 := by
  have hA : Atoi (s.toList.erase '.') = none := by
    cases hv : Atoi (s.toList.erase '.') with
    | none => rfl
    | some v => exact absurd (signedDigits_of_Atoi _ v hv) h
  simp only [Money.AmountCents, amount_eq_erase, hA]

theorem AmountCents_malformed_witness : Money.AmountCents ⟨"1.2.3", "USD"⟩ = 0 :=
  AmountCents_malformed "1.2.3" "USD" (by
    rintro ⟨body, hb, -, hd⟩
    have hdot : '.' ∈ body := by
      rcases hb with hb | hb | hb
      · rw [← hb]; decide
      · have h1 : ("1.2.3".toList.erase '.').head? = some '-' := by rw [hb]; rfl
        exact absurd h1 (by decide)
      · have h1 : ("1.2.3".toList.erase '.').head? = some '+' := by rw [hb]; rfl
        exact absurd h1 (by decide)
    exact absurd (hd '.' hdot) (by decide))

/-- C4: evaluation of `AmountCents` on amounts with three fractional digits. The scale
factor `int(math.Pow10(2-3))` is `0`, so the result is `0`, where the claim asks for
`123` and `10`. -/
theorem AmountCents_three_fraction_digits :
    Money.AmountCents ⟨"1.234", "USD"⟩ = 0 ∧ Money.AmountCents ⟨"0.105", "USD"⟩ = 0 ∧
      Money.AmountCents ⟨"1.23", "USD"⟩ = 123 := by
  decide

/-- C5: for every cent count `c >= 100`, the amount of `MoneyWithCents c cur` is the
decimal text of `c` with one `.` put before its last two digits; that is, the decimal
text of `c / 100`, a `.`, and the two digits of `c mod 100`. -/
theorem MoneyWithCents_point_insertion (c : Int) (cur : String) (h : 100 ≤ c) :
    (∃ a b : List Char, Itoa c = a ++ b ∧ b.length = 2 ∧
        (MoneyWithCents c cur).Amount = String.mk (a ++ '.' :: b)) ∧
      (MoneyWithCents c cur).Amount =
        String.mk (Itoa (c / 100) ++
          '.' :: [digitChar (c % 100 / 10).toNat, digitChar (c % 10).toNat]) := by
  have hn : 100 ≤ c.natAbs := by omega
  have h1 : (c / 100).natAbs = c.natAbs / 100 := by omega
  have h2 : (c % 100 / 10).toNat = c.natAbs / 10 % 10 := by omega
  have h3 : (c % 10).toNat = c.natAbs % 10 := by omega
  rw [moneyWithCents_hundred c cur h, Itoa_nonneg c (by omega), Itoa_nonneg (c / 100) (by omega),
    h1, h2, h3]
  exact ⟨⟨_, _, decimalText_hundred _ hn, rfl, rfl⟩, rfl⟩

theorem MoneyWithCents_point_insertion_witness :
    (100 : Int) ≤ 10012 ∧ (MoneyWithCents 10012 "USD").Amount = "100.12" :=
  ⟨by decide, (MoneyWithCents_point_insertion 10012 "USD" (by decide)).2⟩

set_option maxRecDepth 100000 in
/-- C6: for every cent count `c` with `0 < c < 100`, the amount of `MoneyWithCents c cur`
is `0.` followed by the two decimal digits of `c`, the first of them `0` when
`c < 10`. -/
theorem MoneyWithCents_padding (c : Int) (cur : String) (h0 : 0 < c) (h1 : c < 100) :
    (MoneyWithCents c cur).Amount =
      String.mk ['0', '.', digitChar (c / 10).toNat, digitChar (c % 10).toNat] := by
  interval_cases c <;> rfl

theorem MoneyWithCents_padding_witness :
    (0 : Int) < 5 ∧ (5 : Int) < 100 ∧ (MoneyWithCents 5 "USD").Amount = "0.05" :=
  ⟨by decide, by decide, MoneyWithCents_padding 5 "USD" (by decide) (by decide)⟩

/-- C7: for every currency string `cur`, `MoneyWithCents 0 cur` is the money value with
amount `0` and currency `cur`; its amount is not `0.00`. -/
theorem MoneyWithCents_zero (cur : String) :
    MoneyWithCents 0 cur = ⟨"0", cur⟩ ∧ (MoneyWithCents 0 cur).Amount ≠ "0.00" :=
  ⟨rfl, by show ("0" : String) ≠ "0.00"; decide⟩

set_option maxRecDepth 100000 in
/-- C8: scaling by a whole-number factor is exact. When the cent count `c` of `m`, the
integer `k` and the product `c * k` are all below `2^53` in magnitude, `m.Mul` of the
`float64` holding `k` is `MoneyWithCents (c * k)` in the currency of `m`. Scaling by
`0.0` gives the amount `0` for every `m`; `1.00 GBP` times `2.0` is `2.00 GBP` and
`100 GBP` times `10` is `1000.00 GBP`. -/
theorem Mul_whole_factor :
    (∀ (m : Money) (k : Int), |m.AmountCents| < 2 ^ 53 → |k| < 2 ^ 53 →
        |m.AmountCents * k| < 2 ^ 53 →
        m.Mul (Float64.ofInt k) = MoneyWithCents (m.AmountCents * k) m.Currency) ∧
      (∀ m : Money, (m.Mul (Float64.ofInt 0)).Amount = "0") ∧
      Money.Mul ⟨"1.00", "GBP"⟩ (Float64.ofInt 2) = ⟨"2.00", "GBP"⟩ ∧
      Money.Mul ⟨"100", "GBP"⟩ (Float64.ofInt 10) = ⟨"1000.00", "GBP"⟩ := by
  refine ⟨?_, ?_, by decide, by decide⟩
  · intro m k hc hk hck
    rw [Int.abs_eq_natAbs] at hc hk hck
    have hk1 : k.natAbs < 2 ^ 53 := by omega
    have hp : -(2 ^ 63) ≤ m.AmountCents * k ∧ m.AmountCents * k < 2 ^ 63 := by omega
    simp only [Money.Mul]
    rw [ofInt_exact k hk1, mul_exact _ k 0 (by omega) (by omega) (by decide) (by decide)]
    split
    · rename_i h0
      rw [h0]
      rfl
    · rw [toInt_whole _ hp.1 hp.2]
  · intro m
    obtain ⟨pm, pe, h⟩ := ofInt_finite m.AmountCents (amountCents_range m).1 (amountCents_range m).2
    have h0 : Float64.ofInt 0 = Float64.finite 0 0 := by decide
    simp only [Money.Mul, h, h0, Float64.mul, mul_zero, round_zero]
    rfl

set_option maxRecDepth 100000 in
theorem Mul_whole_factor_witness :
    |Money.AmountCents ⟨"1.00", "GBP"⟩| < 2 ^ 53 ∧ |(2 : Int)| < 2 ^ 53 ∧
      Money.Mul ⟨"1.00", "GBP"⟩ (Float64.ofInt 2) =
        MoneyWithCents (Money.AmountCents ⟨"1.00", "GBP"⟩ * 2) "GBP" :=
  ⟨by decide, by decide,
    Mul_whole_factor.1 ⟨"1.00", "GBP"⟩ 2 (by decide) (by decide) (by decide)⟩

set_option maxRecDepth 100000 in
/-- C9, as stated, fails when the product is not a `float64`. The `float64` nearest to
`0.7` is `3152519739159347 * 2^-52`, a little below `0.7`. Ten cents times this factor
is `6.99...` exactly, whose integer part is `6`; the `float64` multiplication rounds the
product to `7` first, and `Mul` gives seven cents, not six. -/
theorem Mul_rounds_before_truncating :
    Money.AmountCents ⟨"0.10", "USD"⟩ = 10 ∧
      truncToZero (10 * 3152519739159347) (-52) = 6 ∧
      Money.Mul ⟨"0.10", "USD"⟩ (Float64.finite 3152519739159347 (-52)) = ⟨"0.07", "USD"⟩ ∧
      Money.Mul ⟨"0.10", "USD"⟩ (Float64.finite 3152519739159347 (-52)) ≠
        MoneyWithCents
          (truncToZero (Money.AmountCents ⟨"0.10", "USD"⟩ * 3152519739159347) (-52)) "USD" := by
  decide

set_option maxRecDepth 100000 in
/-- C9, amended: `Mul` discards the fraction of the product (truncation toward zero)
whenever the exact product is a `float64`. For a factor `a * 2^b` with `-1074 <= b` and
a cent count `c` with `|c * a| < 2^53`, whose product has an integer part in the range
of `int`, `m.Mul` is `MoneyWithCents` of the exact product `c * a * 2^b` with its
fractional part discarded. For `0 <= c < 2^53` the factor `0.5` gives
`MoneyWithCents (c / 2)`, the quotient rounded down: `1.00` gives `0.50` and `0.03`
gives `0.01`; the factor `-0.5` takes three cents to `-1`, not `-2`. A product that is
not a `float64` is rounded to the nearest `float64` before the fraction is discarded:
`0.10` times `0.7` gives `0.07`. -/
theorem Mul_truncates_exact_product :
    (∀ (m : Money) (a b : Int), |m.AmountCents * a| < 2 ^ 53 → -1074 ≤ b →
        -(2 ^ 63) ≤ truncToZero (m.AmountCents * a) b →
        truncToZero (m.AmountCents * a) b < 2 ^ 63 →
        m.Mul (Float64.finite a b) =
          MoneyWithCents (truncToZero (m.AmountCents * a) b) m.Currency) ∧
      (∀ m : Money, 0 ≤ m.AmountCents → m.AmountCents < 2 ^ 53 →
        m.Mul (Float64.finite 1 (-1)) = MoneyWithCents (m.AmountCents / 2) m.Currency) ∧
      Money.Mul ⟨"1.00", "USD"⟩ (Float64.finite 1 (-1)) = ⟨"0.50", "USD"⟩ ∧
      Money.Mul ⟨"0.03", "USD"⟩ (Float64.finite 1 (-1)) = ⟨"0.01", "USD"⟩ ∧
      Money.Mul ⟨"0.03", "USD"⟩ (Float64.finite (-1) (-1)) = MoneyWithCents (-1) "USD" ∧
      Money.Mul ⟨"0.10", "USD"⟩ (Float64.finite 3152519739159347 (-52)) =
        ⟨"0.07", "USD"⟩ := by
  refine ⟨?_, ?_, by decide, by decide, by decide, by decide⟩
  · intro m a b hca hb1 hlo hhi
    rw [Int.abs_eq_natAbs] at hca
    have hca1 : (m.AmountCents * a).natAbs < 2 ^ 53 := by omega
    by_cases hz : m.AmountCents * a = 0
    · have ht : truncToZero (m.AmountCents * a) b = 0 := by
        rw [hz]
        simp [truncToZero]
      obtain ⟨pm, pe, hof⟩ :=
        ofInt_finite m.AmountCents (amountCents_range m).1 (amountCents_range m).2
      have hpm : pm * a = 0 := by
        rcases mul_eq_zero.mp hz with hc | ha
        · have h0 : Float64.ofInt 0 = Float64.finite 0 0 := by decide
          rw [hc, h0] at hof
          injection hof with h1 h2
          rw [← h1, zero_mul]
        · rw [ha, mul_zero]
      simp only [Money.Mul, hof, Float64.mul, hpm, round_zero, ht]
      rfl
    · have hcpos : 0 < m.AmountCents.natAbs := Int.natAbs_pos.mpr (left_ne_zero_of_mul hz)
      have hapos : 0 < a.natAbs := Int.natAbs_pos.mpr (right_ne_zero_of_mul hz)
      have hc : m.AmountCents.natAbs < 2 ^ 53 := by
        rw [Int.natAbs_mul] at hca1
        exact lt_of_le_of_lt (Nat.le_mul_of_pos_right _ hapos) hca1
      have hb2 : b ≤ 971 := by
        by_contra hb
        have hb0 : (-b).toNat = 0 := by omega
        have hpow : 2 ^ 64 ≤ 2 ^ b.toNat := Nat.pow_le_pow_right (by decide) (by omega)
        have hN : 2 ^ 64 ≤ (m.AmountCents * a).natAbs * 2 ^ b.toNat :=
          le_trans hpow (Nat.le_mul_of_pos_left _ (Int.natAbs_pos.mpr hz))
        unfold truncToZero at hlo hhi
        rw [hb0, pow_zero, Nat.div_one] at hlo hhi
        generalize (m.AmountCents * a).natAbs * 2 ^ b.toNat = N at hN hlo hhi
        rcases lt_or_gt_of_ne hz with hneg | hpos
        · rw [Int.sign_eq_neg_one_of_neg hneg] at hlo
          omega
        · rw [Int.sign_eq_one_of_pos hpos] at hhi
          omega
      simp only [Money.Mul]
      rw [mul_exact _ a b hc hca1 hb1 hb2, if_neg hz, toInt_eq_truncToZero _ b hlo hhi]
  · intro m h0 h1
    simp only [Money.Mul]
    rw [mul_exact _ 1 (-1) (by omega) (by omega) (by decide) (by decide)]
    split
    · rename_i hz
      have hc : m.AmountCents = 0 := by omega
      rw [hc]
      rfl
    · have ht : Float64.toInt (Float64.finite (m.AmountCents * 1) (-1)) = m.AmountCents / 2 := by
        have hd : Int.tdiv (m.AmountCents * 1) 2 = m.AmountCents / 2 := by
          rw [mul_one, Int.tdiv_eq_ediv h0 (by decide)]
        simp only [Float64.toInt]
        norm_num
        rw [mul_one] at hd
        rw [hd, if_pos (by omega)]
      rw [ht]

set_option maxRecDepth 100000 in
theorem Mul_truncates_exact_product_witness :
    |Money.AmountCents ⟨"0.03", "USD"⟩ * 1| < 2 ^ 53 ∧ (-1074 : Int) ≤ -1 ∧
      truncToZero (Money.AmountCents ⟨"0.03", "USD"⟩ * 1) (-1) = 1 ∧
      Money.Mul ⟨"0.03", "USD"⟩ (Float64.finite 1 (-1)) =
        MoneyWithCents (truncToZero (Money.AmountCents ⟨"0.03", "USD"⟩ * 1) (-1)) "USD" ∧
      Money.Mul ⟨"0.03", "USD"⟩ (Float64.finite 1 (-1)) =
        MoneyWithCents (Money.AmountCents ⟨"0.03", "USD"⟩ / 2) "USD" :=
  ⟨by decide, by decide, by decide,
    Mul_truncates_exact_product.1 ⟨"0.03", "USD"⟩ 1 (-1) (by decide) (by decide) (by decide)
      (by decide),
    Mul_truncates_exact_product.2.1 ⟨"0.03", "USD"⟩ (by decide) (by decide)⟩

set_option maxRecDepth 100000 in
/-- Three cents times `0.5`: the `float64` product is `3 * 2^-1`, and `Mul` keeps its
integer part `1`. -/
theorem Mul_three_cents_by_half :
    Float64.mul (Float64.ofInt (Money.AmountCents ⟨"0.03", "USD"⟩)) (Float64.finite 1 (-1)) =
        Float64.finite 3 (-1) ∧ truncToZero 3 (-1) = 1 ∧ truncToZero (-3) (-1) = -1 ∧
      Money.Mul ⟨"0.03", "USD"⟩ (Float64.finite 1 (-1)) = MoneyWithCents 1 "USD" := by
  decide

/-- C10: the currency code passes through unchanged: `Mul` keeps the currency of its
receiver for every factor, and `MoneyWithCents` stores the currency string it is given,
whatever the string is. -/
theorem currency_unchanged :
    (∀ (m : Money) (f : Float64), (m.Mul f).Currency = m.Currency) ∧
      (∀ (c : Int) (cur : String), (MoneyWithCents c cur).Currency = cur) ∧
        (MoneyWithCents 5 "").Currency = "" :=
  ⟨fun _ _ => rfl, fun _ _ => rfl, rfl⟩

/-- C11: the amount rendered by `MoneyWithCents` has the decimal form of the data model
exactly when the cent count is not in `-99 .. -1`. There the sign is counted as a digit:
`-5` is rendered `0.-5` and `-50` is rendered `-.50`. -/
theorem MoneyWithCents_decimalForm (c : Int) (cur : String) :
    (DecimalForm (MoneyWithCents c cur).Amount.toList ↔ (0 ≤ c ∨ c ≤ -100)) ∧
      (MoneyWithCents (-5) cur).Amount = "0.-5" ∧
      (MoneyWithCents (-50) cur).Amount = "-.50" := by
  refine ⟨⟨?_, ?_⟩, rfl, rfl⟩
  · intro h
    by_contra hc
    exact not_decimalForm_small_negative c cur (by omega) (by omega) h
  · intro h
    by_cases h100 : 100 ≤ c
    · rw [moneyWithCents_hundred c cur h100]
      exact ⟨false, decimalText (c.natAbs / 100),
        some [digitChar (c.natAbs / 10 % 10), digitChar (c.natAbs % 10)], rfl,
        decimalText_ne_nil _, decimalText_allDigits _, allDigits_pair _ _, Nat.le_refl _⟩
    · by_cases hneg : c ≤ -100
      · rw [moneyWithCents_neg_hundred c cur hneg]
        exact ⟨true, decimalText (c.natAbs / 100),
          some [digitChar (c.natAbs / 10 % 10), digitChar (c.natAbs % 10)], rfl,
          decimalText_ne_nil _, decimalText_allDigits _, allDigits_pair _ _, Nat.le_refl _⟩
      · by_cases hz : c = 0
        · subst hz
          exact ⟨false, ['0'], none, rfl, by decide, by decide, by decide, by decide⟩
        · rw [moneyWithCents_small c cur (by omega) (by omega)]
          exact ⟨false, ['0'], some [digitChar (c / 10).toNat, digitChar (c % 10).toNat], rfl,
            by decide, by decide, allDigits_pair _ _, Nat.le_refl _⟩

/-- C12, as stated, fails on a response that is not 2xx: with status `404`, a readable
body and a parse that yields no rows, `DownloadReport` returns an empty report and a nil
error. -/
theorem DownloadReport_status_not_inspected :
    ¬ (200 ≤ notFoundExchange.statusCode ∧ notFoundExchange.statusCode ≤ 299) ∧
      DownloadReport notFoundExchange = Outcome.returned (some ⟨[]⟩) none ∧
      ¬ ∃ e, DownloadReport notFoundExchange = Outcome.returned none (some e) := by
  refine ⟨by decide, rfl, ?_⟩
  rintro ⟨e, h⟩
  simp [DownloadReport, notFoundExchange] at h

/-- C12, amended: `DownloadReport` returns a nil report and a non-nil error whenever
request construction or the transport fails, and also, when the body is closed without
error, whenever reading the body or parsing the CSV fails; a report is returned only
when all four steps succeeded, and then with a nil error. The status code of the
response is not read: the outcome is the same for every status code. -/
theorem DownloadReport_errors :
    (∀ (Record : Type) (x : Exchange Record), x.newRequestErr ≠ none ∨ x.doErr ≠ none →
        ∃ e, DownloadReport x = Outcome.returned none (some e)) ∧
      (∀ (Record : Type) (x : Exchange Record), x.closeErr = none →
        ((∃ err, x.readAll = Except.error err) ∨
          (∃ body err, x.readAll = Except.ok body ∧ x.unmarshal body = Except.error err)) →
        ∃ e, DownloadReport x = Outcome.returned none (some e)) ∧
      (∀ (Record : Type) (x : Exchange Record) (r : DailyImpressionShareReport Record)
        (e : Option String), DownloadReport x = Outcome.returned (some r) e →
        e = none ∧ x.newRequestErr = none ∧ x.doErr = none ∧
          ∃ body, x.readAll = Except.ok body ∧ x.unmarshal body = Except.ok r.Records) ∧
      (∀ (Record : Type) (x : Exchange Record) (code : Nat),
        DownloadReport { x with statusCode := code } = DownloadReport x) := by
  refine ⟨?_, ?_, ?_, ?_⟩
  · intro Record x h
    unfold DownloadReport
    cases hn : x.newRequestErr with
    | some err => exact ⟨err, rfl⟩
    | none =>
      cases hd : x.doErr with
      | some err => exact ⟨err, rfl⟩
      | none =>
        rw [hn, hd] at h
        exact absurd h (by simp)
  · intro Record x hc h
    unfold DownloadReport
    cases hn : x.newRequestErr with
    | some err => exact ⟨err, rfl⟩
    | none =>
      cases hd : x.doErr with
      | some err => exact ⟨err, rfl⟩
      | none =>
        rcases h with ⟨err, hr⟩ | ⟨body, err, hr, hu⟩
        · simp only [hc, hr]
          exact ⟨_, rfl⟩
        · simp only [hc, hr, hu]
          exact ⟨_, rfl⟩
  · intro Record x r e h
    unfold DownloadReport at h
    cases hn : x.newRequestErr with
    | some err => rw [hn] at h; simp at h
    | none =>
      cases hd : x.doErr with
      | some err => rw [hn, hd] at h; simp at h
      | none =>
        rw [hn, hd] at h
        cases hc : x.closeErr with
        | some err => rw [hc] at h; simp at h
        | none =>
          cases hr : x.readAll with
          | error err => rw [hc, hr] at h; simp at h
          | ok body =>
            cases hu : x.unmarshal body with
            | error err => rw [hc, hr] at h; simp [hu] at h
            | ok records =>
              rw [hc, hr] at h
              simp only [hu, Outcome.returned.injEq, Option.some.injEq] at h
              obtain ⟨h1, h2⟩ := h
              subst h1
              exact ⟨h2.symm, rfl, rfl, body, rfl, hu⟩
  · intro Record x code
    rfl

theorem DownloadReport_errors_witness :
    timeoutExchange.doErr ≠ none ∧
      ∃ e, DownloadReport timeoutExchange = Outcome.returned none (some e) :=
  ⟨by decide, DownloadReport_errors.1 Unit timeoutExchange (Or.inr (by decide))⟩

/-- C13: for a negative cent count `c` in the range of a 64-bit `int`, rendering with
`MoneyWithCents` and reading back with `AmountCents` gives `c` again exactly when
`c <= -10`; for `-9 <= c <= -1` the rendered amount is `0.-d`, with `d` the digit of
`|c|`, and `AmountCents` of it is `0`. -/
theorem roundtrip_negative (c : Int) (cur : String) (hneg : c < 0) (hlo : -(2 ^ 63) ≤ c) :
    ((MoneyWithCents c cur).AmountCents = c ↔ c ≤ -10) ∧
      (-9 ≤ c → (MoneyWithCents c cur).Amount = String.mk ['0', '.', '-', digitChar c.natAbs] ∧
        (MoneyWithCents c cur).AmountCents = 0) := by
  constructor
  · constructor
    · intro h
      by_contra hc
      have h9 := (moneyWithCents_neg_one_digit c cur (by omega) (by omega)).2
      omega
    · intro h
      by_cases h100 : c ≤ -100
      · exact roundtrip_neg_hundred c cur h100 hlo
      · exact roundtrip_neg_two_digits c cur (by omega) h
  · intro h
    exact moneyWithCents_neg_one_digit c cur h (by omega)

theorem roundtrip_negative_witness :
    (-5 : Int) < 0 ∧ -(2 ^ 63) ≤ (-5 : Int) ∧
      (MoneyWithCents (-5) "USD").Amount = "0.-5" ∧
      (MoneyWithCents (-5) "USD").AmountCents = 0 :=
  ⟨by decide, by decide, (roundtrip_negative (-5) "USD" (by decide) (by decide)).2 (by decide)⟩

/-- C14: when the amount text has three or more characters after its first `.`, the
scale factor `int(math.Pow10(2 - decimalPlaces))` is `0` and `AmountCents` returns `0`,
whatever the characters are. -/
theorem AmountCents_three_or_more_places (s cur : String) (before after : List Char)
    (hs : s.toList = before ++ '.' :: after) (hb : '.' ∉ before) (h3 : 3 ≤ after.length) :
    intPow10 (2 - (goLen after : Int)) = 0 ∧ Money.AmountCents ⟨s, cur⟩ = 0 := by
  have hlen := length_le_goLen after
  have hp : intPow10 (2 - (goLen after : Int)) = 0 := intPow10_neg _ (by omega)
  refine ⟨hp, ?_⟩
  simp only [Money.AmountCents, hs, splitAtDot_append _ _ hb, hp, mul_zero]
  cases Atoi (before ++ after) with
  | none => rfl
  | some v => rfl

theorem AmountCents_three_or_more_places_witness :
    Money.AmountCents ⟨"12.500", "USD"⟩ = 0 :=
  (AmountCents_three_or_more_places "12.500" "USD" ['1', '2'] ['5', '0', '0'] rfl (by decide)
    (by decide)).2

/-- C15, as stated, fails on a canonical amount above the range of `int`: the text
`92233720368547758.08` is canonical and stands for `2^63` cents, `strconv.Atoi` reports
a range error, `AmountCents` is `0`, and `MoneyWithCents` gives back `0`. -/
theorem canonical_out_of_range :
    CanonicalAmount "92233720368547758.08".toList ∧
      Money.AmountCents ⟨"92233720368547758.08", "USD"⟩ = 0 ∧
      MoneyWithCents (Money.AmountCents ⟨"92233720368547758.08", "USD"⟩) "USD" ≠
        ⟨"92233720368547758.08", "USD"⟩ := by
  refine ⟨Or.inr ⟨"92233720368547758".toList, '0', '8', rfl, by decide, by decide,
    Or.inr (by decide), rfl, rfl, by decide⟩, by decide, by decide⟩

/-- C15, amended: on every canonical amount whose value in cents is below `2^63`,
`MoneyWithCents` inverts `AmountCents`; the amounts `100`, `100.1` and `0.00`, which
are not canonical, come back as `100.00`, `100.10` and `0`. -/
theorem canonical_roundtrip :
    (∀ (s cur : String), CanonicalAmount s.toList →
        decimalValue (s.toList.erase '.') < 2 ^ 63 →
        MoneyWithCents (Money.AmountCents ⟨s, cur⟩) cur = ⟨s, cur⟩) ∧
      MoneyWithCents (Money.AmountCents ⟨"100", "USD"⟩) "USD" = ⟨"100.00", "USD"⟩ ∧
      MoneyWithCents (Money.AmountCents ⟨"100.1", "USD"⟩) "USD" = ⟨"100.10", "USD"⟩ ∧
      MoneyWithCents (Money.AmountCents ⟨"0.00", "USD"⟩) "USD" = ⟨"0", "USD"⟩ := by
  refine ⟨?_, by decide, by decide, by decide⟩
  intro s cur hc hfit
  rcases s with ⟨l⟩
  change CanonicalAmount l at hc
  change decimalValue (l.erase '.') < 2 ^ 63 at hfit
  rcases hc with hc | ⟨ip, a, b, hl, hne, hi, hz, ha, hb, hpos⟩
  · subst hc
    rfl
  · subst hl
    have hdot := dot_not_mem_of_allDigits ip hi
    rw [List.erase_append_right _ hdot, List.erase_cons_head] at hfit
    exact canonical_point ip a b cur hne hi hz ha hb hpos hfit

theorem canonical_roundtrip_witness :
    MoneyWithCents (Money.AmountCents ⟨"100.12", "USD"⟩) "USD" = ⟨"100.12", "USD"⟩ :=
  canonical_roundtrip.1 "100.12" "USD"
    (Or.inr ⟨['1', '0', '0'], '1', '2', rfl, by decide, by decide, Or.inr (by decide), rfl, rfl,
      by decide⟩)
    (by decide)

/-! ## The cases of `money_test.go` -/

set_option maxRecDepth 100000 in
theorem test_AmountCents :
    Money.AmountCents ⟨"0", "USD"⟩ = 0 ∧ Money.AmountCents ⟨"100", "USD"⟩ = 10000 ∧
      Money.AmountCents ⟨"100.1", "USD"⟩ = 10010 ∧
      Money.AmountCents ⟨"100.12", "USD"⟩ = 10012 := by
  decide

set_option maxRecDepth 100000 in
theorem test_MoneyWithCents :
    MoneyWithCents 0 "USD" = ⟨"0", "USD"⟩ ∧ MoneyWithCents 5 "USD" = ⟨"0.05", "USD"⟩ ∧
      MoneyWithCents 50 "USD" = ⟨"0.50", "USD"⟩ ∧ MoneyWithCents 53 "USD" = ⟨"0.53", "USD"⟩ ∧
      MoneyWithCents 153 "USD" = ⟨"1.53", "USD"⟩ ∧
      MoneyWithCents 10000 "GBP" = ⟨"100.00", "GBP"⟩ ∧
      MoneyWithCents 10010 "USD" = ⟨"100.10", "USD"⟩ ∧
      MoneyWithCents 10012 "USD" = ⟨"100.12", "USD"⟩ := by
  decide

set_option maxRecDepth 100000 in
theorem test_Mul :
    Money.Mul ⟨"0", "USD"⟩ (Float64.finite 1 0) = ⟨"0", "USD"⟩ ∧
      Money.Mul ⟨"1.00", "USD"⟩ (Float64.finite 1 (-1)) = ⟨"0.50", "USD"⟩ ∧
      Money.Mul ⟨"1.00", "GBP"⟩ (Float64.finite 2 0) = ⟨"2.00", "GBP"⟩ ∧
      Money.Mul ⟨"1.00", "GBP"⟩ (Float64.finite 0 0) = ⟨"0", "GBP"⟩ ∧
      Money.Mul ⟨"100", "GBP"⟩ (Float64.finite 10 0) = ⟨"1000.00", "GBP"⟩ := by
  decide

theorem test_Itoa :
    Itoa 0 = ['0'] ∧ Itoa (-5) = ['-', '5'] ∧ Itoa 10012 = ['1', '0', '0', '1', '2'] ∧
      Atoi ['+', '7'] = some 7 ∧ Atoi ['-'] = none ∧ Atoi [] = none ∧
      Atoi "9223372036854775808".toList = none ∧
      Atoi "-9223372036854775808".toList = some (-(2 ^ 63)) := by
  decide

set_option maxRecDepth 100000 in
/-- The `float64` nearest to `0.7` is `3152519739159347 * 2^-52`, a little below `0.7`;
its product with `10` rounds to the `float64` `7`, so ten cents times `0.7` are seven
cents. -/
theorem Mul_ten_cents_by_seven_tenths :
    Money.Mul ⟨"0.10", "USD"⟩ (Float64.finite 3152519739159347 (-52)) = ⟨"0.07", "USD"⟩ := by
  decide

end asa
